import Mathlib

/-!
Verification of the wyag-go object store against its specification.

The Go source is shallowly embedded: byte strings become lists of
characters (all inputs of interest are byte strings; a character stands
for one byte), fallible code returns values in an error monad, Go
panics (index/slice out of range, nil dereference) are modelled by the
distinguished error `Err.crash`, and loops without a structural
termination argument take an explicit fuel parameter whose exhaustion
is the distinguished error `Err.nonterm` (modelling divergence of the
Go loop).  Filesystem state, where needed, is an explicit in-memory
map from paths to entries.
-/

namespace Wyag

/-- Byte strings of the Go program: a list of characters, one per byte. -/
abbrev Bytes := List Char

/-- Bytes of a Lean string literal. -/
def str (s : String) : Bytes := s.data

/-- Error outcomes of the embedded operations.  `crash` models a Go
runtime panic (out-of-range index or slice, nil dereference);
`nonterm` models divergence of a Go loop (fuel exhaustion). -/
inductive Err where
  | crash
  | nonterm
  | unknownType
  | badLength
  | badLeaf
  | badSha
  | uintErr
  | uintRange
  | atoiErr
  | atoiRange
  | notExist
  | notAFile
  | notADir
  | mkdirFail
  | isDir
  | unexpectedType
  | notFound
  deriving Repr, DecidableEq

/-- First index of character c in l, or none: the recursion behind
`bytes.Index` for a one-byte separator. -/
def goIndexAux (c : Char) : Bytes → Option Nat
  | [] => none
  | x :: t => if x = c then some 0 else (goIndexAux c t).map (· + 1)

/-- Go `bytes.Index(l, []byte{c})`: first index of c in l, or -1. -/
def goIndex (l : Bytes) (c : Char) : Int :=
  match goIndexAux c l with
  | some i => (i : Int)
  | none => -1

/-- Go slice `l[a:b]` (for indices already checked to be in range). -/
def slice (l : Bytes) (a b : Nat) : Bytes := (l.take b).drop a

/-! ## Object kinds (object.go: ObjectType, ConvertObjectType) -/

/-- The closed enumeration of object kinds. -/
inductive ObjectType where
  | commit
  | tree
  | tag
  | blob
  deriving Repr, DecidableEq

/-- Go `ConvertObjectType`: match a kind tag against the closed
enumeration, in the order of the `ObjectTypes` slice. -/
def convertObjectType (s : Bytes) : Option ObjectType :=
  if s = str "commit" then some .commit
  else if s = str "tree" then some .tree
  else if s = str "tag" then some .tag
  else if s = str "blob" then some .blob
  else none

/-! ## KVLM (object.go: Kvlm, ParseKvlm, Kvlm.Serialize)

The Go `Kvlm` keeps a `map[string][]string` together with a `keys`
slice recording first-insertion order, each key occurring once in
`keys`.  That pair is embedded as an ordered association list with
unique keys. -/

structure Kvlm where
  entries : List (Bytes × List Bytes)
  deriving Repr, DecidableEq

/-- Go `Kvlm.Add`: append the value to the key's list, first registering
the key (at the end of the insertion order) if it is new. -/
def Kvlm.add (k : Kvlm) (key : Bytes) (v : Bytes) : Kvlm :=
  if k.entries.any (fun e => e.fst == key) then
    ⟨k.entries.map (fun e => if e.fst == key then (e.fst, e.snd ++ [v]) else e)⟩
  else
    ⟨k.entries ++ [(key, [v])]⟩

/-- Go `Kvlm.Get`: the value list of a key, if present. -/
def Kvlm.get (k : Kvlm) (key : Bytes) : Option (List Bytes) :=
  (k.entries.find? (fun e => e.fst == key)).map (fun e => e.snd)

/-- Go `strings.Replace(v, "\n", "\n ", -1)`: the serializer's
continuation marking. -/
def escape : Bytes → Bytes
  | [] => []
  | c :: t => if c = '\n' then '\n' :: ' ' :: escape t else c :: escape t

/-- Go `bytes.Replace(span, "\n ", "\n", -1)`: left-to-right,
non-overlapping removal of continuation markers in the parser. -/
def unescape : Bytes → Bytes
  | [] => []
  | [c] => [c]
  | c :: c2 :: t =>
    if c = '\n' ∧ c2 = ' ' then '\n' :: unescape t else c :: unescape (c2 :: t)

/-- One serialized header line `key SPACE escaped-value NEWLINE`. -/
def kvLine (key v : Bytes) : Bytes := key ++ ' ' :: escape v ++ ['\n']

/-- Go `Kvlm.Serialize`: keyed lines in insertion order (empty key
skipped), then a blank line, then the concatenated message values. -/
def Kvlm.serialize (k : Kvlm) : Bytes :=
  ((k.entries.filter (fun e => e.fst ≠ [])).flatMap
      (fun e => e.snd.flatMap (fun v => kvLine e.fst v)))
    ++ '\n' :: ((k.get []).getD []).flatten

/-- The scan in `ParseKvlm` looking for the newline that ends a field's
value: from `bytes.Index(raw[end+1:], "\n") + end + 1` compute the next
candidate (the old position when no newline is found, as in Go, where
Index yields -1), then inspect `raw[end+1]` — a Go panic when that
index is past the end — continuing when it is a space. -/
def scanEnd (raw : Bytes) (endPos : Nat) : Nat → Except Err Nat
  | 0 => .error .nonterm
  | fuel + 1 =>
    let e : Nat :=
      match goIndexAux '\n' (raw.drop (endPos + 1)) with
      | some i => i + endPos + 1
      | none => endPos
    match raw.get? (e + 1) with
    | none => .error .crash
    | some ch => if ch = ' ' then scanEnd raw e fuel else .ok e

/-- Go `ParseKvlm(raw, start, kvlm)`, with explicit fuel for the
recursion.  `spc` and `n1` are `bytes.Index` results relative to
`start`, shifted by `start` (hence `start - 1` encodes absence); the
message branch takes `raw[start+1:]` (a panic when `start+1` exceeds
the length); otherwise the key is `raw[start:spc]`, the value span
runs to the scanned end position (Go panics when `spc+1 > end`), and
parsing continues after the terminating newline. -/
def parseKvlmF (raw : Bytes) : Nat → Nat → Kvlm → Except Err Kvlm
  | 0, _, _ => .error .nonterm
  | fuel + 1, start, kvlm =>
    let spc : Int := goIndex (raw.drop start) ' ' + start
    let n1 : Int := goIndex (raw.drop start) '\n' + start
    if spc < (start : Int) + 1 ∨ n1 < (start : Int) + 1 then
      if start + 1 ≤ raw.length then .ok (kvlm.add [] (raw.drop (start + 1)))
      else .error .crash
    else
      let key := slice raw start spc.toNat
      match scanEnd raw start (fuel + 1) with
      | .error e => .error e
      | .ok endPos =>
        if spc.toNat + 1 ≤ endPos then
          parseKvlmF raw fuel (endPos + 1)
            (kvlm.add key (unescape (slice raw (spc.toNat + 1) endPos)))
        else .error .crash

/-- Go `ParseKvlm(raw, 0, nil)` as used by `CommitObject.DeSerialize`. -/
def parseKvlm (raw : Bytes) : Except Err Kvlm :=
  parseKvlmF raw (raw.length + 1) 0 ⟨[]⟩

/-! ## Tree objects (object.go: TreeLeafObject, ParseLeaf, ParseTree,
TreeObject.Serialize) -/

structure TreeLeaf where
  mode : Bytes
  path : Bytes
  sha : Bytes
  deriving Repr, DecidableEq

/-- Lowercase hex digit of a value below 16. -/
def hexDigitChar (n : Nat) : Char :=
  if n < 10 then Char.ofNat (48 + n) else Char.ofNat (87 + n)

/-- Go `fmt.Sprintf("%x", bytes)`: two lowercase hex digits per byte. -/
def hexOf (b : Bytes) : Bytes :=
  b.flatMap (fun c => [hexDigitChar (c.toNat % 256 / 16), hexDigitChar (c.toNat % 16)])

/-- Go `ParseLeaf(raw, start)`: mode up to the first space (which must lie
5 or 6 bytes in), path up to the next NUL, then 20 raw identifier
bytes rendered as hex; returns the new cursor `y + 21`. -/
def parseLeaf (raw : Bytes) (start : Nat) : Except Err (Nat × TreeLeaf) :=
  let x : Int := goIndex (raw.drop start) ' ' + start
  if ¬(x - start = 5 ∨ x - start = 6) then .error .badLeaf
  else
    let xN := x.toNat
    let y : Int := goIndex (raw.drop xN) '\x00' + xN
    if y < x + 1 then .error .crash
    else
      let yN := y.toNat
      if yN + 21 ≤ raw.length then
        .ok (yN + 21,
          ⟨slice raw start xN, slice raw (xN + 1) yN, hexOf (slice raw (yN + 1) (yN + 21))⟩)
      else .error .crash

/-- Go `ParseTree`: parse leaves until the cursor reaches the end. -/
def parseTreeF (raw : Bytes) : Nat → Nat → Except Err (List TreeLeaf)
  | 0, _ => .error .nonterm
  | fuel + 1, pos =>
    if pos < raw.length then
      match parseLeaf raw pos with
      | .error e => .error e
      | .ok (pos1, leaf) => (parseTreeF raw fuel pos1).map (fun l => leaf :: l)
    else .ok []

def parseTree (raw : Bytes) : Except Err (List TreeLeaf) :=
  parseTreeF raw (raw.length + 1) 0

/-- Digit value of a hex character (Go ParseUint, base 16, accepts
both cases), or none. -/
def hexVal (c : Char) : Option Nat :=
  if 48 ≤ c.toNat ∧ c.toNat ≤ 57 then some (c.toNat - 48)
  else if 97 ≤ c.toNat ∧ c.toNat ≤ 102 then some (c.toNat - 87)
  else if 65 ≤ c.toNat ∧ c.toNat ≤ 70 then some (c.toNat - 55)
  else none

/-- Accumulating loop of `strconv.ParseUint(s, 16, 64)`: per
character, a bad digit is a syntax error, a value past 2^64 - 1 a
range error. -/
def parseUintHexAux (acc : Nat) : Bytes → Except Err Nat
  | [] => .ok acc
  | c :: t =>
    match hexVal c with
    | none => .error .uintErr
    | some d =>
      if acc * 16 + d < 2 ^ 64 then parseUintHexAux (acc * 16 + d) t
      else .error .uintRange

/-- Go `strconv.ParseUint(s, 16, 64)`. -/
def parseUintHex64 (s : Bytes) : Except Err Nat :=
  if s = [] then .error .uintErr else parseUintHexAux 0 s

/-- Iteration of the `binary.PutUvarint` loop, with explicit fuel (the
loop divides by 128 each round, so fuel x + 1 always suffices). -/
def putUvarintNAux : Nat → Nat → Nat
  | _, 0 => 0
  | x, fuel + 1 => if x < 128 then 1 else 1 + putUvarintNAux (x / 128) fuel

/-- The number of bytes `binary.PutUvarint` writes for x: one 7-bit
group per iteration, at least one and never more than ten. -/
def putUvarintN (x : Nat) : Nat := putUvarintNAux x (x + 1)

/-- The varint groups `binary.PutUvarint` writes, low first. -/
def uvarintGroups (x : Nat) : List Nat :=
  if x < 128 then [x] else (x % 128 + 128) :: uvarintGroups (x / 128)
  termination_by x
  decreasing_by exact Nat.div_lt_self (by omega) (by omega)

/-- The bytes `binary.PutUvarint` leaves in the 20-byte buffer:
the varint groups followed by the untouched zero padding. -/
def uvarintBuf (x : Nat) : Bytes :=
  let g := uvarintGroups x
  (g ++ List.replicate (20 - g.length) 0).map Char.ofNat

/-- Go `TreeObject.Serialize`: per leaf, mode, space, path, NUL, then the
identifier put through `strconv.ParseUint(sha, 16, 64)` and
`binary.PutUvarint` into a 20-byte buffer, rejected as an invalid sha
whenever the number of bytes written differs from 20. -/
def treeSerialize : List TreeLeaf → Except Err Bytes
  | [] => .ok []
  | i :: rest =>
    match parseUintHex64 i.sha with
    | .error e => .error e
    | .ok x =>
      if 20 ≠ putUvarintN x then .error .badSha
      else (treeSerialize rest).map
        (fun tail => i.mode ++ ' ' :: i.path ++ '\x00' :: uvarintBuf x ++ tail)

/-! ## Objects and the codec (object.go: Object, NewObject,
ReadObject, WriteObject, HashObject) -/

/-- The tagged object variants.  Tag is a recognized kind with no
constructor: `NewObject` fails on it. -/
inductive Object where
  | blob (data : Bytes)
  | tree (items : List TreeLeaf)
  | commit (kv : Kvlm)
  deriving Repr, DecidableEq

def Object.typeHeader : Object → ObjectType
  | .blob _ => .blob
  | .tree _ => .tree
  | .commit _ => .commit

/-- The `Serialize` method of the object variants. -/
def Object.serialize : Object → Except Err Bytes
  | .blob b => .ok b
  | .tree items => treeSerialize items
  | .commit k => .ok k.serialize

/-- The lowercase kind tag, as written into the frame. -/
def typeHeaderName : ObjectType → Bytes
  | .commit => str "commit"
  | .tree => str "tree"
  | .tag => str "tag"
  | .blob => str "blob"

/-- Go `NewObject`: dispatch on the kind tag; the commit deserializer is
`ParseKvlm` (whose Go panics propagate), the tree deserializer
`ParseTree`; the Tag case falls through to the unknown-type error. -/
def newObject (t : ObjectType) (raw : Bytes) : Except Err Object :=
  match t with
  | .commit => (parseKvlm raw).map .commit
  | .tree => (parseTree raw).map .tree
  | .tag => .error .unknownType
  | .blob => .ok (.blob raw)

/-- Decimal digits of a natural number. -/
def natDigits (n : Nat) : Bytes := (Nat.toDigits 10 n)

/-- Whether a character is a decimal digit (Go byte comparison). -/
def isDigitB (c : Char) : Bool := decide (48 ≤ c.toNat ∧ c.toNat ≤ 57)

/-- Value of a decimal digit string. -/
def digitsVal (digs : Bytes) : Nat :=
  digs.foldl (fun a c => a * 10 + (c.toNat - 48)) 0

/-- The digit scan of `strconv.Atoi` after the sign: decimal digits
only, value within the 64-bit signed range. -/
def atoiCore (neg : Bool) (digs : Bytes) : Except Err Int :=
  if digs = [] then .error .atoiErr
  else if digs.all isDigitB then
    if neg then
      if digitsVal digs ≤ 2 ^ 63 then .ok (-(digitsVal digs : Int)) else .error .atoiRange
    else
      if digitsVal digs < 2 ^ 63 then .ok ((digitsVal digs : Int)) else .error .atoiRange
  else .error .atoiErr

/-- Go `strconv.Atoi`: optional sign, decimal digits, 64-bit range. -/
def atoi (s : Bytes) : Except Err Int :=
  match s with
  | [] => atoiCore false []
  | c :: t =>
    if c = '+' then atoiCore false t
    else if c = '-' then atoiCore true t
    else atoiCore false (c :: t)

/-- The framing parse of `ReadObject` applied to the decompressed
bytes: kind up to the first space (`raw[:x]` is a Go panic when there
is no space), declared length between the space and the next NUL
(`raw[x+1:x+y]` is a Go panic when there is no NUL), the length
compared against the number of bytes remaining after the NUL, and the
payload dispatched through `NewObject`. -/
def readObjectRaw (raw : Bytes) : Except Err Object :=
  let x : Int := goIndex raw ' '
  if x < 0 then .error .crash
  else
    let xN := x.toNat
    match convertObjectType (raw.take xN) with
    | none => .error .unknownType
    | some t =>
      let y : Int := goIndex (raw.drop xN) '\x00'
      if y < 1 then .error .crash
      else
        let yN := y.toNat
        match atoi (slice raw (xN + 1) (xN + yN)) with
        | .error e => .error e
        | .ok size =>
          if size ≠ (raw.length : Int) - x - y - 1 then .error .badLength
          else newObject t (raw.drop (xN + yN + 1))

/-! SHA-1 over byte values, for the identifier computed by
`WriteObject` (sha1.New / hex.EncodeToString). -/

def w32 (n : Nat) : Nat := n % 2 ^ 32

def rotl32 (n s : Nat) : Nat := w32 (n * 2 ^ s + n / 2 ^ (32 - s))

/-- Big-endian bytes of a value, fixed width. -/
def beBytes : Nat → Nat → List Nat
  | 0, _ => []
  | w + 1, n => n / 2 ^ (8 * w) % 256 :: beBytes w n

/-- Big-endian 32-bit words of a list of bytes. -/
def beWords : List Nat → List Nat
  | b0 :: b1 :: b2 :: b3 :: t => (((b0 * 256 + b1) * 256 + b2) * 256 + b3) :: beWords t
  | _ => []

/-- SHA-1 message schedule: extend 16 words to 80. -/
def sha1Extend (w : List Nat) : Nat → List Nat
  | 0 => w
  | k + 1 =>
    let w1 := sha1Extend w k
    let i := w1.length
    w1 ++ [rotl32 ((((w1.getD (i - 3) 0).xor (w1.getD (i - 8) 0)).xor
      (w1.getD (i - 14) 0)).xor (w1.getD (i - 16) 0)) 1]

/-- One SHA-1 round. -/
def sha1Round (i : Nat) (w : List Nat) (st : Nat × Nat × Nat × Nat × Nat) :
    Nat × Nat × Nat × Nat × Nat :=
  let (a, b, c, d, e) := st
  let f :=
    if i < 20 then ((b.land c).lor ((2 ^ 32 - 1 - b).land d))
    else if i < 40 then ((b.xor c).xor d)
    else if i < 60 then (((b.land c).lor (b.land d)).lor (c.land d))
    else ((b.xor c).xor d)
  let k :=
    if i < 20 then 0x5A827999
    else if i < 40 then 0x6ED9EBA1
    else if i < 60 then 0x8F1BBCDC
    else 0xCA62C1D6
  let tmp := w32 (rotl32 a 5 + f + e + k + w.getD i 0)
  (tmp, a, rotl32 b 30, c, d)

/-- Process one 64-byte chunk. -/
def sha1Chunk (h : Nat × Nat × Nat × Nat × Nat) (chunk : List Nat) :
    Nat × Nat × Nat × Nat × Nat :=
  let w := sha1Extend (beWords chunk) 64
  let (h0, h1, h2, h3, h4) := h
  let st := (List.range 80).foldl (fun st i => sha1Round i w st) (h0, h1, h2, h3, h4)
  (w32 (h0 + st.1), w32 (h1 + st.2.1), w32 (h2 + st.2.2.1),
   w32 (h3 + st.2.2.2.1), w32 (h4 + st.2.2.2.2))

def chunks64 (l : List Nat) : List (List Nat) :=
  if h : l = [] then [] else l.take 64 :: chunks64 (l.drop 64)
  termination_by l.length
  decreasing_by
    have hp : 0 < l.length := List.length_pos.mpr h
    simp [List.length_drop]
    omega

/-- SHA-1 digest (20 bytes) of a byte list. -/
def sha1Bytes (m : List Nat) : List Nat :=
  let ml := 8 * m.length
  let padLen := (55 + 64 - m.length % 64) % 64
  let padded := m ++ 0x80 :: List.replicate padLen 0 ++ beBytes 8 ml
  let (h0, h1, h2, h3, h4) := (chunks64 padded).foldl sha1Chunk
    (0x67452301, 0xEFCDAB89, 0x98BADCFE, 0x10325476, 0xC3D2E1F0)
  beBytes 4 h0 ++ beBytes 4 h1 ++ beBytes 4 h2 ++ beBytes 4 h3 ++ beBytes 4 h4

/-- Go `hex.EncodeToString(sha1(frame))` over a byte string. -/
def sha1Hex (b : Bytes) : Bytes :=
  hexOf ((sha1Bytes (b.map (fun c => c.toNat % 256))).map Char.ofNat)

/-- The pure core of `WriteObject`: serialize the object, frame it as
kind, space, decimal payload length, NUL, payload, and return the hex
SHA-1 of the frame.  (With persist set, Go additionally compresses the
frame into the id-derived path; the returned id is the same in both
modes, and file-write errors are outside this model.) -/
def writeObject (o : Object) (persist : Bool) : Except Err Bytes :=
  match o.serialize with
  | .error e => .error e
  | .ok data =>
    let frame := typeHeaderName o.typeHeader ++ ' ' :: natDigits data.length ++ '\x00' :: data
    .ok (sha1Hex frame)

/-- Go `WriteObject(repo, o, persist)` where `o` is the possibly-nil
interface value `HashObject` passes along: calling it on a nil object
dereferences nil (a Go panic). -/
def writeObjectOpt (o : Option Object) (persist : Bool) : Except Err Bytes :=
  match o with
  | none => .error .crash
  | some o => writeObject o persist

/-- Go `HashObject(f, t, repo, write)` on the bytes read from the file:
construct the object, then — as the source does — treat a nil
construction error as the unknown-type failure and otherwise hand the
(nil) object to `WriteObject`. -/
def hashObject (t : ObjectType) (raw : Bytes) (write : Bool) : Except Err Bytes :=
  match newObject t raw with
  | .ok _ => .error .unknownType
  | .error _ => writeObjectOpt none write

/-! ## Graph walkers (main.go: LogGraphviz, CheckoutTree)

Both walkers read back stored objects through `ReadObject`; the store
is modelled at that boundary as a map from identifiers to the objects
their frames decode to.  `LogGraphviz` additionally writes edges to
standard output and mutates a visited set; the embedding threads an
explicit state recording the visited set, the emitted edges, and the
identifiers handed to `ReadObject`. -/

/-- A loose-object store, at the `ReadObject` boundary. -/
abbrev Store := List (Bytes × Object)

def lookupStore (store : Store) (sha : Bytes) : Option Object :=
  (store.find? (fun e => e.fst == sha)).map (fun e => e.snd)

/-- Observable state of `LogGraphviz`: the visited set (`exist`), the
edges printed so far, and the identifiers read via `ReadObject`. -/
structure LogSt where
  visited : List Bytes
  edges : List (Bytes × Bytes)
  reads : List Bytes
  deriving Repr, DecidableEq

/-- Go `LogGraphviz(repo, sha, exist)`: return at once on a visited id,
else mark it, read the object (an error unless it is a Commit),
finish on a missing parent key, and otherwise print an edge to each
parent and recurse into it in order, propagating errors. -/
def logGraphviz (store : Store) : Nat → Bytes → LogSt → Except Err LogSt
  | 0, _, _ => .error .nonterm
  | fuel + 1, sha, st =>
    if st.visited.contains sha then .ok st
    else
      let st1 : LogSt := ⟨st.visited ++ [sha], st.edges, st.reads ++ [sha]⟩
      match lookupStore store sha with
      | none => .error .notFound
      | some c =>
        if c.typeHeader ≠ .commit then .error .unexpectedType
        else
          match c with
          | .commit kv =>
            match kv.get (str "parent") with
            | none => .ok st1
            | some parents =>
              parents.foldlM
                (fun s p =>
                  logGraphviz store fuel p ⟨s.visited, s.edges ++ [(sha, p)], s.reads⟩)
                st1
          | _ => .error .unexpectedType

/-- Filesystem effects of `CheckoutTree`. -/
inductive FsAct where
  | mkdir (path : Bytes)
  | write (path : Bytes) (data : Bytes)
  deriving Repr, DecidableEq

/-- Go `filepath.Join` for the clean relative names used here. -/
def joinPath (a b : Bytes) : Bytes := a ++ '/' :: b

/-- Go `CheckoutTree(repo, tree, path)`: iterate the leaves in stored
order; read each referenced object; on a Tree make the subdirectory
and `return CheckoutTree(...)` — leaving the loop as the source does —
and on a Blob write the raw bytes and continue; a leaf of any other
kind matches no switch case and is passed over. -/
def checkoutTree (store : Store) : Nat → List TreeLeaf → Bytes → Except Err (List FsAct)
  | 0, _, _ => .error .nonterm
  | _ + 1, [], _ => .ok []
  | fuel + 1, item :: rest, path =>
    match lookupStore store item.sha with
    | none => .error .notFound
    | some o =>
      let dest := joinPath path item.path
      match o with
      | .tree t => (checkoutTree store fuel t dest).map (fun acts => .mkdir dest :: acts)
      | .blob b => (checkoutTree store fuel rest path).map (fun acts => .write dest b :: acts)
      | .commit _ => checkoutTree store fuel rest path

/-! ## Concrete scenarios used by the claims -/

/-- The diamond commit graph A to B and C, both to D. -/
def diamondStore : Store := [
  (str "a", .commit ⟨[(str "tree", [str "t0"]), (str "parent", [str "b", str "c"])]⟩),
  (str "b", .commit ⟨[(str "parent", [str "d"])]⟩),
  (str "c", .commit ⟨[(str "parent", [str "d"])]⟩),
  (str "d", .commit ⟨[(str "tree", [str "t0"])]⟩)]

/-- The state `LogGraphviz` reaches on the diamond, starting at A. -/
def diamondResult : LogSt :=
  ⟨[str "a", str "b", str "d", str "c"],
   [(str "a", str "b"), (str "b", str "d"), (str "a", str "c"), (str "c", str "d")],
   [str "a", str "b", str "d", str "c"]⟩

/-- A store with one empty subtree and one blob, for checkout. -/
def checkoutStore : Store := [
  (str "00d", .tree []),
  (str "00f", .blob (str "x"))]

/-- A tree whose first leaf is a subtree and whose second is a blob. -/
def checkoutItems : List TreeLeaf :=
  [⟨str "40000", str "d", str "00d"⟩, ⟨str "100644", str "f", str "00f"⟩]

/-- The keyed header lines of a field list, as the serializer emits
them in order. -/
def serializeFields (fields : List (Bytes × Bytes)) : Bytes :=
  fields.flatMap (fun f => kvLine f.1 f.2)

/-- A key the KVLM grammar can carry on a header line: nonempty,
without space or newline bytes. -/
def goodKey (k : Bytes) : Prop := k ≠ [] ∧ (∀ x ∈ k, x ≠ ' ') ∧ (∀ x ∈ k, x ≠ '\n')

/-! ## Repository layout (repository.go: Repository.MakeFile,
Repository.makeFile, makeDirectories, makeDirectory; main.go:
ResolveRef)

The filesystem under the metadata root is modelled as an in-memory
association list from repository-relative paths to entries: `os.Stat`
is lookup, `os.Mkdir` and file creation insert entries.
`Repository.Path` joins the metadata root with the relative path and
is injective on the names used here, so paths stay repo-relative; the
metadata root itself is the entry with the empty name (and, because
`filepath.Dir` of a bare name is the dot path, also under the dot
name). -/

inductive Entry where
  | dir
  | file (content : Bytes)
  deriving Repr, DecidableEq

abbrev FS := List (Bytes × Entry)

/-- Go `os.Stat` on the modelled filesystem. -/
def statFS (fs : FS) (p : Bytes) : Option Entry :=
  (fs.find? (fun e => e.fst == p)).map (fun e => e.snd)

/-- Go `strings.Split(s, "/")`. -/
def splitSlash : Bytes → List Bytes
  | [] => [[]]
  | c :: t =>
    if c = '/' then [] :: splitSlash t
    else
      match splitSlash t with
      | s :: ss => (c :: s) :: ss
      | [] => [[c]]

/-- Go `strings.Join(l, "/")`. -/
def joinSlash (l : List Bytes) : Bytes := List.intercalate ['/'] l

/-- Go `strings.Trim(path, "/")`. -/
def trimSlashes (p : Bytes) : Bytes :=
  ((p.dropWhile (fun c => c = '/')).reverse.dropWhile (fun c => c = '/')).reverse

/-- The prefixes `makeDirectories` walks: the Go loop appends a slash
to the trimmed path and visits the stretch before each slash, that is
the join of each nonempty prefix of the segments. -/
def dirPrefixes (p : Bytes) : List Bytes :=
  (List.range (splitSlash (trimSlashes p)).length).map
    (fun i => joinSlash ((splitSlash (trimSlashes p)).take (i + 1)))

/-- The parent of a path (segment-wise). -/
def parentPath (p : Bytes) : Bytes := joinSlash ((splitSlash p).dropLast)

/-- Go `os.Mkdir`: fails when the parent directory is absent (the parent
of the metadata root itself is the worktree, outside the model). -/
def mkdirFS (fs : FS) (p : Bytes) : Except Err FS :=
  if p = [] then .ok (fs ++ [(p, .dir)])
  else
    match statFS fs (parentPath p) with
    | some .dir => .ok (fs ++ [(p, .dir)])
    | _ => .error .mkdirFail

/-- Go `makeDirectory(path, mkdir)`: stat; absent is created when asked
and otherwise silently accepted; an existing non-directory is an
error. -/
def makeDirectory (fs : FS) (p : Bytes) (mk : Bool) : Except Err FS :=
  match statFS fs p with
  | none => if mk then mkdirFS fs p else .ok fs
  | some .dir => .ok fs
  | some (.file _) => .error .notADir

/-- Go `MakeDirectories` / `makeDirectories`: walk every prefix. -/
def makeDirectories (fs : FS) (p : Bytes) (mk : Bool) : Except Err FS :=
  (dirPrefixes p).foldlM (fun s q => makeDirectory s q mk) fs

/-- Go `filepath.Dir`, for the clean relative paths used here. -/
def goDir (p : Bytes) : Bytes :=
  if (splitSlash p).length ≤ 1 then str "." else joinSlash ((splitSlash p).dropLast)

/-- Go `Repository.makeFile` (the existPath variant used by WriteObject
and CreateRepository): ensure the parent directories, then stat — an
existing directory is the not-a-file error, an existing file yields no
handle and leaves the file untouched, and an absent file is created
with O_CREATE and its handle returned. -/
def makeFileL (fs : FS) (p : Bytes) (mk : Bool) : Except Err (Option Bytes × FS) :=
  match makeDirectories fs
      (joinSlash ((splitSlash (p.dropWhile (fun c => c = '/'))).dropLast)) mk with
  | .error e => .error e
  | .ok fs1 =>
    match statFS fs1 p with
    | some .dir => .error .notAFile
    | some (.file _) => .ok (none, fs1)
    | none => .ok (some p, fs1 ++ [(p, .file [])])

/-- Go `Repository.MakeFile` (the OpenFile variant used by ResolveRef):
ensure directories for `filepath.Dir(path)`, then `os.OpenFile` with
O_RDWR, adding O_CREATE when mkdir is set — an existing file is opened
and its handle returned, opening an existing directory fails, and an
absent file is created only under O_CREATE and otherwise reported
missing. -/
def makeFileU (fs : FS) (p : Bytes) (mk : Bool) : Except Err (Option Bytes × FS) :=
  match makeDirectories fs (goDir p) mk with
  | .error e => .error e
  | .ok fs1 =>
    match statFS fs1 p with
    | some (.file _) => .ok (some p, fs1)
    | some .dir => .error .isDir
    | none => if mk then .ok (some p, fs1 ++ [(p, .file [])]) else .error .notExist

/-- Go `io.ReadAll` on a handle returned by `MakeFile`. -/
def readAll (fs : FS) (h : Bytes) : Except Err Bytes :=
  match statFS fs h with
  | some (.file c) => .ok c
  | _ => .error .crash

/-- Go `ResolveRef(repo, ref)`: read the ref file through
`MakeFile(ref, false)`, strip the final byte — `b[:len(b)-1]`, a Go
panic on an empty file — then follow one symbolic indirection per
literal "ref: " prefix and otherwise return the content as the id. -/
def resolveRef (fs : FS) : Nat → Bytes → Except Err Bytes
  | 0, _ => .error .nonterm
  | fuel + 1, ref =>
    match makeFileU fs ref false with
    | .error e => .error e
    | .ok (none, _) => .error .crash
    | .ok (some h, _) =>
      match readAll fs h with
      | .error e => .error e
      | .ok b =>
        if b = [] then .error .crash
        else
          if (str "ref: ").isPrefixOf b.dropLast then resolveRef fs fuel (b.dropLast.drop 5)
          else .ok b.dropLast

/-- Lowercase hexadecimal digit bytes. -/
def isLowerHex (c : Char) : Bool :=
  decide ((48 ≤ c.toNat ∧ c.toNat ≤ 57) ∨ (97 ≤ c.toNat ∧ c.toNat ≤ 102))

/-- A metadata root holding an existing regular file HEAD. -/
def fsHEAD : FS := [(str "", .dir), (str ".", .dir), (str "HEAD", .file (str "x"))]

/-- A metadata root where refs/heads/foo is a symbolic ref to
refs/heads/bar, which holds a literal id followed by a newline. -/
def fsRefs (id : Bytes) : FS :=
  [(str "", .dir), (str ".", .dir), (str "refs", .dir), (str "refs/heads", .dir),
   (str "refs/heads/foo", .file (str "ref: refs/heads/bar" ++ ['\n'])),
   (str "refs/heads/bar", .file (id ++ ['\n']))]

/-- A metadata root holding an empty ref file r. -/
def fsEmptyRef : FS := [(str "", .dir), (str ".", .dir), (str "r", .file [])]

/-- A metadata root whose ref file r holds bytes with no trailing
newline. -/
def fsBareId (c : Bytes) : FS := [(str "", .dir), (str ".", .dir), (str "r", .file c)]

/-! # Theorems -/

/-- Loop invariant of `strconv.ParseUint`: a successfully parsed value
stays below 2^64. -/
theorem parseUintHexAux_lt :
    ∀ (s : Bytes) (acc x : Nat), parseUintHexAux acc s = .ok x → acc < 2 ^ 64 → x < 2 ^ 64 := by
  intro s
  induction s with
  | nil =>
    intro acc x he h
    simp [parseUintHexAux] at he
    omega
  | cons c t ih =>
    intro acc x he h
    rw [parseUintHexAux] at he
    cases hv : hexVal c with
    | none =>
      simp only [hv] at he
      exact Except.noConfusion he
    | some d =>
      simp only [hv] at he
      by_cases hb : acc * 16 + d < 2 ^ 64
      · rw [if_pos hb] at he
        exact ih _ _ he hb
      · rw [if_neg hb] at he
        exact Except.noConfusion he

/-- Go `binary.PutUvarint` writes at most k+1 bytes for values below
128^(k+1), for any sufficient fuel. -/
theorem putUvarintNAux_le :
    ∀ (k x fuel : Nat), x < 128 ^ (k + 1) → x < fuel → putUvarintNAux x fuel ≤ k + 1 := by
  intro k
  induction k with
  | zero =>
    intro x fuel hx hf
    cases fuel with
    | zero => simp [putUvarintNAux]
    | succ f =>
      rw [putUvarintNAux, if_pos (show x < 128 by simpa using hx)]
  | succ k ih =>
    intro x fuel hx hf
    cases fuel with
    | zero => simp [putUvarintNAux]
    | succ f =>
      rw [putUvarintNAux]
      by_cases h : x < 128
      · rw [if_pos h]
        omega
      · rw [if_neg h]
        have h2 : x < 128 * 128 ^ (k + 1) := by
          have hp : (128 : Nat) ^ (k + 1 + 1) = 128 * 128 ^ (k + 1) := by ring
          omega
        have hd : x / 128 < 128 ^ (k + 1) := Nat.div_lt_of_lt_mul h2
        have hsmall : x / 128 < x := Nat.div_lt_self (by omega) (by omega)
        have := ih (x / 128) f hd (by omega)
        omega

/-- Go `binary.PutUvarint` writes at most 10 bytes for 64-bit values. -/
theorem putUvarintN_le10 (x : Nat) (hx : x < 2 ^ 64) : putUvarintN x ≤ 10 := by
  have h70 : x < 128 ^ 10 := lt_of_lt_of_le hx (by norm_num)
  exact putUvarintNAux_le 9 x (x + 1) h70 (by omega)

/-- Claim C1: the claimed tree round trip (serialization succeeding and
emitting 20 raw identifier bytes per leaf) fails on the code — the
serializer parses the 40-hex id with ParseUint at 64 bits (a range
error whenever the id exceeds 2^64 - 1) and otherwise writes a varint
of at most 10 bytes while demanding that exactly 20 bytes were
written, so it returns an error for every nonempty leaf list. -/
theorem c1_tree_serialize_never_succeeds (leaf : TreeLeaf) (rest : List TreeLeaf) :
    ∃ e, treeSerialize (leaf :: rest) = .error e := by
  cases hp : parseUintHex64 leaf.sha with
  | error e =>
    refine ⟨e, ?_⟩
    simp only [treeSerialize, hp]
  | ok x =>
    have hx : x < 2 ^ 64 := by
      rw [parseUintHex64] at hp
      by_cases hs : leaf.sha = []
      · rw [if_pos hs] at hp; cases hp
      · rw [if_neg hs] at hp
        exact parseUintHexAux_lt _ _ _ hp (by norm_num)
    have h10 : putUvarintN x ≤ 10 := putUvarintN_le10 x hx
    refine ⟨.badSha, ?_⟩
    simp only [treeSerialize, hp]
    rw [if_pos (show 20 ≠ putUvarintN x by omega)]

/-- Claim C1 evaluated at concrete failing inputs: an id small enough
for ParseUint still fails the 20-byte check, and a typical id
overflows 64 bits. -/
theorem c1_concrete_failures :
    treeSerialize [⟨str "100644", str "a", str "00000000000000000000000000000000000000ab"⟩]
      = .error .badSha ∧
    treeSerialize [⟨str "100644", str "a", str "ffffffffffffffffffffffffffffffffffffffff"⟩]
      = .error .uintRange := by
  exact ⟨rfl, rfl⟩

/-- Claim C2: the claim that hashing a payload of a recognized kind
returns the object id fails on the code — `HashObject` inverts its
error check, so it reports the unknown-type failure exactly when
object construction succeeds (every blob, and well-formed commit
payloads, in both persist modes), while for the Tag kind (whose
construction fails) it passes the nil object to `WriteObject`, which
dereferences it. -/
theorem c2_hash_object_fails_on_recognized_kinds :
    (∀ (raw : Bytes) (write : Bool), hashObject .blob raw write = .error .unknownType) ∧
    hashObject .commit (str "tree t\n\nm") true = .error .unknownType ∧
    hashObject .commit (str "tree t\n\nm") false = .error .unknownType ∧
    hashObject .tag (str "x") false = .error .crash :=
  ⟨fun _ _ => rfl, rfl, rfl, rfl⟩

/-- Claim C3: tree materialization does not process every leaf — on a
tree whose first leaf is a subtree and whose second is a blob, the
walker creates the subdirectory and returns out of the loop, never
writing the blob. -/
theorem c3_checkout_tree_skips_leaves_after_first_subtree :
    checkoutTree checkoutStore 9 checkoutItems (str "p")
      = .ok [.mkdir (str "p/d")] := by
  rfl

/-- Claim C6, counterexample: parsing a buffer whose final byte is the
newline terminating a keyed field's value does not succeed — the value
scan indexes one byte past the end of the buffer (a Go panic). -/
theorem c6_counterexample_scan_past_end :
    parseKvlm (str "tree x\n") = .error .crash := by
  rfl

/-- First occurrence through an append: when the separator is absent
from the first part, the index lands on the explicit occurrence. -/
theorem goIndexAux_append_first (c : Char) :
    ∀ (l₁ l₂ : Bytes), (∀ x ∈ l₁, x ≠ c) → goIndexAux c (l₁ ++ c :: l₂) = some l₁.length := by
  intro l₁
  induction l₁ with
  | nil => intro l₂ h; simp [goIndexAux]
  | cons a t ih =>
    intro l₂ h
    have ha : a ≠ c := h a (by simp)
    simp [goIndexAux, ha, ih l₂ (fun x hx => h x (by simp [hx]))]

/-- Go index `bytes.Index` through an append, as above. -/
theorem goIndex_append_first (c : Char) (l₁ l₂ : Bytes) (h : ∀ x ∈ l₁, x ≠ c) :
    goIndex (l₁ ++ c :: l₂) c = l₁.length := by
  rw [goIndex, goIndexAux_append_first c l₁ l₂ h]

/-- A Go slice cutting the middle part out of an append. -/
theorem slice_middle (p mid s : Bytes) :
    slice (p ++ (mid ++ s)) p.length (p.length + mid.length) = mid := by
  rw [slice, ← List.append_assoc]
  have h1 : (p ++ mid ++ s).take (p.length + mid.length) = p ++ mid := by
    rw [← List.length_append]
    exact List.take_left (p ++ mid) s
  rw [h1]
  exact List.drop_left p mid

/-- A decimal digit is not the NUL byte. -/
theorem digit_ne_nul {c : Char} (h : isDigitB c) : c ≠ '\x00' := by
  intro he
  subst he
  exact absurd h (by decide)

/-- Go `strconv.Atoi` on a digit string takes no sign branch. -/
theorem atoi_digits (s : Bytes) (hne : s ≠ []) (hdig : ∀ c ∈ s, isDigitB c) :
    atoi s = atoiCore false s := by
  cases s with
  | nil => exact absurd rfl hne
  | cons c t =>
    have hc := hdig c (by simp)
    have h1 : c ≠ '+' := by intro h; rw [h] at hc; exact absurd hc (by decide)
    have h2 : c ≠ '-' := by intro h; rw [h] at hc; exact absurd hc (by decide)
    rw [atoi, if_neg h1, if_neg h2]

/-- Go `strconv.Atoi` accepts an in-range digit string. -/
theorem atoiCore_ok (s : Bytes) (hne : s ≠ []) (hdig : ∀ c ∈ s, isDigitB c)
    (hr : digitsVal s < 2 ^ 63) : atoiCore false s = .ok ((digitsVal s : Int)) := by
  rw [atoiCore, if_neg hne, if_pos (by rw [List.all_eq_true]; exact hdig)]
  rw [if_neg (by simp), if_pos hr]

/-- Claim C4: on a frame whose decompressed bytes are a recognized
kind tag, a space, an in-range decimal length field, a NUL and a
payload, `readObject` fails with the malformed-length error whenever
the declared length differs from the number of bytes after the NUL,
and otherwise hands exactly the payload to the deserializer selected
by the kind. -/
theorem c4_read_object_length_validation
    (kindB lenstr payload : Bytes)
    (hk : kindB = str "commit" ∨ kindB = str "tree" ∨ kindB = str "tag" ∨ kindB = str "blob")
    (hne : lenstr ≠ []) (hdig : ∀ c ∈ lenstr, isDigitB c)
    (hrange : digitsVal lenstr < 2 ^ 63) :
    ∀ t, convertObjectType kindB = some t →
      (digitsVal lenstr ≠ payload.length →
        readObjectRaw (kindB ++ ' ' :: (lenstr ++ '\x00' :: payload)) = .error .badLength) ∧
      (digitsVal lenstr = payload.length →
        readObjectRaw (kindB ++ ' ' :: (lenstr ++ '\x00' :: payload)) = newObject t payload) := by
  intro t ht
  have hno : ∀ x ∈ kindB, x ≠ ' ' := by
    rcases hk with h | h | h | h <;> subst h <;> decide
  have hkne : kindB ≠ [] := by
    rcases hk with h | h | h | h <;> subst h <;> decide
  have hno0 : ∀ x ∈ ' ' :: lenstr, x ≠ '\x00' := by
    intro x hx
    rcases List.mem_cons.mp hx with h | h
    · subst h; decide
    · exact digit_ne_nul (hdig x h)
  have hx : goIndex (kindB ++ ' ' :: (lenstr ++ '\x00' :: payload)) ' ' = kindB.length :=
    goIndex_append_first ' ' kindB _ hno
  have hdropk : (kindB ++ ' ' :: (lenstr ++ '\x00' :: payload)).drop kindB.length
      = ' ' :: lenstr ++ '\x00' :: payload := List.drop_left kindB _
  have hy : goIndex ((kindB ++ ' ' :: (lenstr ++ '\x00' :: payload)).drop kindB.length) '\x00'
      = ((lenstr.length + 1 : Nat) : Int) := by
    rw [hdropk]
    have h2 := goIndex_append_first '\x00' (' ' :: lenstr) payload hno0
    simpa using h2
  have htake : (kindB ++ ' ' :: (lenstr ++ '\x00' :: payload)).take kindB.length = kindB :=
    List.take_left kindB _
  have hsl : slice (kindB ++ ' ' :: (lenstr ++ '\x00' :: payload))
      (kindB.length + 1) (kindB.length + (lenstr.length + 1)) = lenstr := by
    have hr2 : kindB ++ ' ' :: (lenstr ++ '\x00' :: payload)
        = (kindB ++ [' ']) ++ (lenstr ++ '\x00' :: payload) := by simp
    have harg : kindB.length + (lenstr.length + 1)
        = (kindB ++ [' ']).length + lenstr.length := by simp; omega
    have harg2 : kindB.length + 1 = (kindB ++ [' ']).length := by simp
    rw [hr2, harg, harg2]
    exact slice_middle (kindB ++ [' ']) lenstr ('\x00' :: payload)
  have hlen : (kindB ++ ' ' :: (lenstr ++ '\x00' :: payload)).length
      = kindB.length + 1 + lenstr.length + 1 + payload.length := by
    simp
    omega
  have hdropp : (kindB ++ ' ' :: (lenstr ++ '\x00' :: payload)).drop
      (kindB.length + (lenstr.length + 1) + 1) = payload := by
    have hr2 : kindB ++ ' ' :: (lenstr ++ '\x00' :: payload)
        = (kindB ++ ' ' :: (lenstr ++ ['\x00'])) ++ payload := by simp
    have harg : kindB.length + (lenstr.length + 1) + 1
        = (kindB ++ ' ' :: (lenstr ++ ['\x00'])).length := by simp; omega
    rw [hr2, harg]
    exact List.drop_left _ payload
  simp only [readObjectRaw, hx, hy, htake, ht, hsl, hdropp, Int.toNat_natCast]
  rw [if_neg (by omega)]
  rw [if_neg (by omega)]
  rw [atoi_digits lenstr hne hdig, atoiCore_ok lenstr hne hdig hrange]
  constructor
  · intro hmis
    dsimp only
    have hcond : ((digitsVal lenstr : Int))
        ≠ (((kindB ++ ' ' :: (lenstr ++ '\x00' :: payload)).length : Nat) : Int)
          - ((kindB.length : Nat) : Int) - ((lenstr.length + 1 : Nat) : Int) - 1 := by
      rw [hlen]
      push_cast
      omega
    rw [if_pos hcond]
  · intro hmat
    dsimp only
    have hcond : ((digitsVal lenstr : Int))
        = (((kindB ++ ' ' :: (lenstr ++ '\x00' :: payload)).length : Nat) : Int)
          - ((kindB.length : Nat) : Int) - ((lenstr.length + 1 : Nat) : Int) - 1 := by
      rw [hlen]
      push_cast
      omega
    rw [if_neg (not_ne_iff.mpr hcond)]

/-- Claim C4, witnessed at concrete frames: a blob frame declaring
length 3 over a 2-byte payload is rejected as malformed, and the same
frame declaring length 2 dispatches the payload to the blob codec. -/
theorem c4_witness :
    readObjectRaw (str "blob" ++ ' ' :: (str "3" ++ '\x00' :: str "hi")) = .error .badLength ∧
    readObjectRaw (str "blob" ++ ' ' :: (str "2" ++ '\x00' :: str "hi"))
      = newObject .blob (str "hi") := by
  constructor
  · exact ((c4_read_object_length_validation (str "blob") (str "3") (str "hi")
      (by decide) (by decide) (by decide) (by decide) .blob (by decide)).1 (by decide))
  · exact ((c4_read_object_length_validation (str "blob") (str "2") (str "hi")
      (by decide) (by decide) (by decide) (by decide) .blob (by decide)).2 (by decide))

/-- Claim C7: on the diamond commit graph (A to B and C, both to D),
the traversal from A with an empty visited set succeeds, reads D
exactly once, and emits exactly the four edges A-B, B-D, A-C, C-D,
each exactly once. -/
theorem c7_diamond_traversal :
    logGraphviz diamondStore 5 (str "a") ⟨[], [], []⟩ = .ok diamondResult ∧
    diamondResult.reads.count (str "d") = 1 ∧
    diamondResult.edges.count (str "a", str "b") = 1 ∧
    diamondResult.edges.count (str "a", str "c") = 1 ∧
    diamondResult.edges.count (str "b", str "d") = 1 ∧
    diamondResult.edges.count (str "c", str "d") = 1 ∧
    diamondResult.edges.length = 4 := by
  refine ⟨rfl, ?_, ?_, ?_, ?_, ?_, rfl⟩ <;> rfl

/-! Lemmas on the KVLM continuation marking and the value scan. -/

/-- Marking distributes over append. -/
theorem escape_append (a b : Bytes) : escape (a ++ b) = escape a ++ escape b := by
  induction a with
  | nil => rfl
  | cons c t ih =>
    by_cases hc : c = '\n'
    · subst hc; simp [escape, ih]
    · simp [escape, hc, ih]

/-- Marking leaves a newline-free string unchanged. -/
theorem escape_no_nl (w : Bytes) (h : ∀ x ∈ w, x ≠ '\n') : escape w = w := by
  induction w with
  | nil => rfl
  | cons c t ih =>
    rw [escape, if_neg (h c (by simp))]
    rw [ih (fun x hx => h x (by simp [hx]))]

/-- Marking never shortens a string. -/
theorem escape_length_ge (w : Bytes) : w.length ≤ (escape w).length := by
  induction w with
  | nil => simp [escape]
  | cons c t ih =>
    by_cases hc : c = '\n'
    · subst hc; simp [escape]; omega
    · simp [escape, hc]; omega

/-- Unmarking a string starting with an unmarked byte. -/
theorem unescape_cons_ne {c : Char} (hc : c ≠ '\n') (xs : Bytes) :
    unescape (c :: xs) = c :: unescape xs := by
  cases xs with
  | nil => rfl
  | cons c2 t2 =>
    rw [unescape, if_neg (by intro h; exact hc h.1)]

/-- Unmarking inverts marking. -/
theorem unescape_escape (v : Bytes) : unescape (escape v) = v := by
  induction v with
  | nil => rfl
  | cons c t ih =>
    by_cases hc : c = '\n'
    · subst hc
      rw [escape, if_pos rfl]
      cases he : escape t with
      | nil =>
        cases t with
        | nil => rfl
        | cons c2 t2 =>
          rw [escape] at he
          by_cases h2 : c2 = '\n' <;> simp [h2] at he
      | cons e1 es =>
        rw [unescape, if_pos ⟨rfl, rfl⟩, ← he, ih]
    · rw [escape, if_neg hc, unescape_cons_ne hc, ih]

/-- The index of an absent byte. -/
theorem goIndexAux_none (c : Char) :
    ∀ (l : Bytes), (∀ x ∈ l, x ≠ c) → goIndexAux c l = none := by
  intro l
  induction l with
  | nil => intro h; rfl
  | cons a t ih =>
    intro h
    rw [goIndexAux, if_neg (h a (by simp)), ih (fun x hx => h x (by simp [hx]))]
    rfl

/-- Reading `l.get?` through `drop`. -/
theorem getq_drop : ∀ (l : Bytes) (i : Nat), l.get? i = (l.drop i).head? := by
  intro l
  induction l with
  | nil => intro i; cases i <;> rfl
  | cons c t ih =>
    intro i
    cases i with
    | zero => rfl
    | succ j => simpa using ih j

/-- Either a byte is absent, or the string splits at its first
occurrence. -/
theorem split_first (c : Char) :
    ∀ (w : Bytes), (∀ x ∈ w, x ≠ c) ∨
      ∃ w₁ w₂, w = w₁ ++ c :: w₂ ∧ ∀ x ∈ w₁, x ≠ c := by
  intro w
  induction w with
  | nil => exact Or.inl (by simp)
  | cons a t ih =>
    by_cases ha : a = c
    · subst ha
      exact Or.inr ⟨[], t, by simp⟩
    · rcases ih with hnone | ⟨w₁, w₂, hw, h1⟩
      · refine Or.inl ?_
        intro x hx
        rcases List.mem_cons.mp hx with h | h
        · subst h; exact ha
        · exact hnone x h
      · refine Or.inr ⟨a :: w₁, w₂, by simp [hw], ?_⟩
        intro x hx
        rcases List.mem_cons.mp hx with h | h
        · subst h; exact ha
        · exact h1 x h

/-- A successful value scan stops strictly inside the buffer. -/
theorem scanEnd_lt (raw : Bytes) :
    ∀ (fuel endPos r : Nat), scanEnd raw endPos fuel = .ok r → r + 1 < raw.length := by
  intro fuel
  induction fuel with
  | zero => intro endPos r h; exact Except.noConfusion h
  | succ f ih =>
    intro endPos r h
    rw [scanEnd] at h
    set e : Nat :=
      match goIndexAux '\n' (raw.drop (endPos + 1)) with
      | some i => i + endPos + 1
      | none => endPos with he
    cases hg : raw.get? (e + 1) with
    | none =>
      rw [hg] at h
      exact Except.noConfusion h
    | some ch =>
      simp only [hg] at h
      by_cases hs : ch = ' '
      · rw [if_pos hs] at h
        exact ih e r h
      · rw [if_neg hs] at h
        injection h with h2
        rw [getq_drop] at hg
        have hne : raw.drop (e + 1) ≠ [] := by
          intro hnil
          rw [hnil] at hg
          exact Option.noConfusion hg
        have hlt : e + 1 < raw.length := by
          by_contra hc
          push_neg at hc
          exact hne (List.drop_eq_nil_iff.mpr hc)
        rw [← h2]
        exact hlt

/-- The value scan on a well-formed remainder: after the cursor the
buffer holds a newline-free stretch, a marked value (each of whose
newlines is followed by the continuation space), the terminating
newline and a nonempty rest not starting with a space; the scan skips
every continuation and stops exactly on the terminating newline. -/
theorem scanEnd_ok :
    ∀ (fuel : Nat) (w u rest raw : Bytes) (endPos : Nat),
      w.count '\n' + 1 ≤ fuel →
      raw.drop (endPos + 1) = u ++ (escape w ++ '\n' :: rest) →
      (∀ x ∈ u, x ≠ '\n') →
      rest ≠ [] → rest.head? ≠ some ' ' →
      scanEnd raw endPos fuel = .ok (endPos + 1 + u.length + (escape w).length) := by
  intro fuel
  induction fuel with
  | zero =>
    intro w u rest raw endPos hf _ _ _ _
    omega
  | succ f ih =>
    intro w u rest raw endPos hf hd hu hrne hrh
    rcases split_first '\n' w with hno | ⟨w₁, w₂, hw, h1⟩
    · have hesc : escape w = w := escape_no_nl w hno
      rw [hesc] at hd
      have hnl : ∀ x ∈ u ++ w, x ≠ '\n' := by
        intro x hx
        rcases List.mem_append.mp hx with h | h
        · exact hu x h
        · exact hno x h
      have hidx : goIndexAux '\n' (raw.drop (endPos + 1)) = some (u ++ w).length := by
        rw [hd]
        have hassoc : u ++ (w ++ '\n' :: rest) = (u ++ w) ++ '\n' :: rest := by simp
        rw [hassoc]
        exact goIndexAux_append_first '\n' (u ++ w) rest hnl
      simp only [scanEnd, hidx]
      have hget : raw.get? ((u ++ w).length + endPos + 1 + 1) = rest.head? := by
        rw [getq_drop]
        have hdd : raw.drop ((u ++ w).length + endPos + 1 + 1)
            = (raw.drop (endPos + 1)).drop ((u ++ w).length + 1) := by
          rw [List.drop_drop]
          congr 1
          omega
        rw [hdd, hd]
        have hassoc : u ++ (w ++ '\n' :: rest) = ((u ++ w) ++ ['\n']) ++ rest := by simp
        rw [hassoc]
        have hlen2 : ((u ++ w) ++ ['\n']).length = (u ++ w).length + 1 := by
          rw [List.length_append]
          rfl
        rw [← hlen2, List.drop_left]
      simp only [hget]
      cases rest with
      | nil => exact absurd rfl hrne
      | cons r rs =>
        have hrs : r ≠ ' ' := by
          intro h
          exact hrh (by simp [h])
        simp only [List.head?]
        rw [if_neg hrs, hesc]
        congr 1
        simp only [List.length_append]
        omega
    · subst hw
      have hesc : escape (w₁ ++ '\n' :: w₂) = w₁ ++ '\n' :: ' ' :: escape w₂ := by
        rw [escape_append, escape_no_nl w₁ h1]
        simp [escape]
      rw [hesc] at hd
      have hnl : ∀ x ∈ u ++ w₁, x ≠ '\n' := by
        intro x hx
        rcases List.mem_append.mp hx with h | h
        · exact hu x h
        · exact h1 x h
      have hidx : goIndexAux '\n' (raw.drop (endPos + 1)) = some (u ++ w₁).length := by
        rw [hd]
        have hassoc : u ++ ((w₁ ++ '\n' :: ' ' :: escape w₂) ++ '\n' :: rest)
            = (u ++ w₁) ++ '\n' :: (' ' :: (escape w₂ ++ '\n' :: rest)) := by simp
        rw [hassoc]
        exact goIndexAux_append_first '\n' _ _ hnl
      simp only [scanEnd, hidx]
      have hget : raw.get? ((u ++ w₁).length + endPos + 1 + 1) = some ' ' := by
        rw [getq_drop]
        have hdd : raw.drop ((u ++ w₁).length + endPos + 1 + 1)
            = (raw.drop (endPos + 1)).drop ((u ++ w₁).length + 1) := by
          rw [List.drop_drop]
          congr 1
          omega
        rw [hdd, hd]
        have hassoc : u ++ ((w₁ ++ '\n' :: ' ' :: escape w₂) ++ '\n' :: rest)
            = ((u ++ w₁) ++ ['\n']) ++ (' ' :: (escape w₂ ++ '\n' :: rest)) := by simp
        rw [hassoc]
        have hlen2 : ((u ++ w₁) ++ ['\n']).length = (u ++ w₁).length + 1 := by
          rw [List.length_append]
          rfl
        rw [← hlen2, List.drop_left]
        rfl
      simp only [hget, if_pos]
      have hdd2 : raw.drop (((u ++ w₁).length + endPos + 1) + 1)
          = [' '] ++ (escape w₂ ++ '\n' :: rest) := by
        have hdd : raw.drop (((u ++ w₁).length + endPos + 1) + 1)
            = (raw.drop (endPos + 1)).drop ((u ++ w₁).length + 1) := by
          rw [List.drop_drop]
          congr 1
          omega
        rw [hdd, hd]
        have hassoc : u ++ ((w₁ ++ '\n' :: ' ' :: escape w₂) ++ '\n' :: rest)
            = ((u ++ w₁) ++ ['\n']) ++ ([' '] ++ (escape w₂ ++ '\n' :: rest)) := by simp
        rw [hassoc]
        have hlen2 : ((u ++ w₁) ++ ['\n']).length = (u ++ w₁).length + 1 := by
          rw [List.length_append]
          rfl
        rw [← hlen2, List.drop_left]
      have hcount : w₂.count '\n' + 1 ≤ f := by
        have h0 : w₁.count '\n' = 0 :=
          List.count_eq_zero.mpr (fun hm => h1 '\n' hm rfl)
        rw [List.count_append, h0] at hf
        simp [List.count_cons] at hf
        omega
      have hrec := ih w₂ [' '] rest raw ((u ++ w₁).length + endPos + 1) hcount hdd2
        (by intro x hx; simp at hx; subst hx; decide) hrne hrh
      rw [hrec]
      congr 1
      rw [hesc]
      simp only [List.length_append, List.length_cons, List.length_nil]
      omega

/-- A Go slice is invariant under shifting both cuts past a dropped
stretch. -/
theorem slice_shift (raw : Bytes) (s a b : Nat) :
    slice raw (a + s) (b + s) = slice (raw.drop s) a b := by
  rw [slice, slice]
  have h1 : (raw.take (b + s)).drop (a + s) = ((raw.take (b + s)).drop s).drop a := by
    rw [List.drop_drop]
    congr 1
    omega
  rw [h1, List.drop_take]
  have h2 : b + s - s = b := by omega
  rw [h2]

/-- Shifting `get?` past a dropped stretch. -/
theorem getq_shift (raw : Bytes) (s X Y : Nat) (hEq : X = s + Y) :
    raw.get? X = (raw.drop s).get? Y := by
  rw [getq_drop, getq_drop, List.drop_drop, hEq]

/-- The value scan only looks at the buffer from the cursor on: it
commutes with dropping an initial stretch. -/
theorem scanEnd_shift :
    ∀ (fuel : Nat) (raw : Bytes) (s e : Nat),
      scanEnd raw (s + e) fuel = (scanEnd (raw.drop s) e fuel).map (fun r => r + s) := by
  intro fuel
  induction fuel with
  | zero => intro raw s e; rfl
  | succ f ih =>
    intro raw s e
    have hix : goIndexAux '\n' (raw.drop (s + e + 1))
        = goIndexAux '\n' ((raw.drop s).drop (e + 1)) := by
      rw [List.drop_drop]
      congr 1
    simp only [scanEnd]
    cases hg : goIndexAux '\n' ((raw.drop s).drop (e + 1)) with
    | some i =>
      simp only [hix, hg]
      rw [getq_shift raw s (i + (s + e) + 1 + 1) (i + e + 1 + 1) (by omega)]
      cases hch : (raw.drop s).get? (i + e + 1 + 1) with
      | none => rfl
      | some ch =>
        dsimp only
        by_cases hsp : ch = ' '
        · rw [if_pos hsp, if_pos hsp]
          have hID : i + (s + e) + 1 = s + (i + e + 1) := by omega
          rw [hID]
          exact ih raw s (i + e + 1)
        · rw [if_neg hsp, if_neg hsp]
          have hID : i + (s + e) + 1 = (i + e + 1) + s := by omega
          rw [hID]
          rfl
    | none =>
      simp only [hix, hg]
      rw [getq_shift raw s (s + e + 1) (e + 1) (by omega)]
      cases hch : (raw.drop s).get? (e + 1) with
      | none => rfl
      | some ch =>
        dsimp only
        by_cases hsp : ch = ' '
        · rw [if_pos hsp, if_pos hsp]
          exact ih raw s e
        · rw [if_neg hsp, if_neg hsp]
          have hID : s + e = e + s := by omega
          rw [hID]
          rfl

/-- The parser `ParseKvlm` only looks at the buffer from `start` on: parsing at
`start` equals parsing the dropped buffer at 0. -/
theorem parseKvlmF_shift :
    ∀ (fuel : Nat) (raw : Bytes) (s : Nat) (acc : Kvlm), s ≤ raw.length →
      parseKvlmF raw fuel s acc = parseKvlmF (raw.drop s) fuel 0 acc := by
  intro fuel
  induction fuel with
  | zero => intro raw s acc h; rfl
  | succ f ih =>
    intro raw s acc h
    have hlen : (raw.drop s).length = raw.length - s := List.length_drop s raw
    simp only [parseKvlmF, List.drop_zero, Nat.cast_zero]
    by_cases hcond : goIndex (raw.drop s) ' ' < 1 ∨ goIndex (raw.drop s) '\n' < 1
    · have hcl : goIndex (raw.drop s) ' ' + (s : Int) < (s : Int) + 1 ∨
          goIndex (raw.drop s) '\n' + (s : Int) < (s : Int) + 1 := by
        rcases hcond with hc | hc
        · exact Or.inl (by omega)
        · exact Or.inr (by omega)
      have hcr : goIndex (raw.drop s) ' ' + 0 < 0 + 1 ∨
          goIndex (raw.drop s) '\n' + 0 < 0 + 1 := by
        rcases hcond with hc | hc
        · exact Or.inl (by omega)
        · exact Or.inr (by omega)
      rw [if_pos hcl, if_pos hcr]
      by_cases hb : s + 1 ≤ raw.length
      · rw [if_pos hb, if_pos (show 0 + 1 ≤ (raw.drop s).length by omega)]
        have hd : (raw.drop s).drop (0 + 1) = raw.drop (s + 1) := by
          rw [List.drop_drop]
        rw [hd]
      · rw [if_neg hb, if_neg (show ¬(0 + 1 ≤ (raw.drop s).length) by omega)]
    · have hsp : 1 ≤ goIndex (raw.drop s) ' ' := by omega
      have hnl : 1 ≤ goIndex (raw.drop s) '\n' := by omega
      have hcl : ¬(goIndex (raw.drop s) ' ' + (s : Int) < (s : Int) + 1 ∨
          goIndex (raw.drop s) '\n' + (s : Int) < (s : Int) + 1) := by
        push_neg
        constructor <;> omega
      have hcr : ¬(goIndex (raw.drop s) ' ' + 0 < 0 + 1 ∨
          goIndex (raw.drop s) '\n' + 0 < 0 + 1) := by
        push_neg
        constructor <;> omega
      rw [if_neg hcl, if_neg hcr]
      have htn : (goIndex (raw.drop s) ' ' + (s : Int)).toNat
          = (goIndex (raw.drop s) ' ' + 0).toNat + s := by omega
      have hkey : slice raw s ((goIndex (raw.drop s) ' ' + (s : Int)).toNat)
          = slice (raw.drop s) 0 ((goIndex (raw.drop s) ' ' + 0).toNat) := by
        rw [htn]
        have hs := slice_shift raw s 0 ((goIndex (raw.drop s) ' ' + 0).toNat)
        simpa using hs
      have hscan := scanEnd_shift (f + 1) raw s 0
      rw [show s + 0 = s from rfl] at hscan
      rw [hscan, hkey]
      cases hsc : scanEnd (raw.drop s) 0 (f + 1) with
      | error e => rfl
      | ok endR =>
        have hlt := scanEnd_lt (raw.drop s) (f + 1) 0 endR hsc
        simp only [Except.map]
        by_cases hgg : (goIndex (raw.drop s) ' ' + 0).toNat + 1 ≤ endR
        · rw [if_pos (by omega), if_pos hgg]
          have hval : slice raw ((goIndex (raw.drop s) ' ' + (s : Int)).toNat + 1) (endR + s)
              = slice (raw.drop s) ((goIndex (raw.drop s) ' ' + 0).toNat + 1) endR := by
            rw [htn]
            have hs := slice_shift raw s ((goIndex (raw.drop s) ' ' + 0).toNat + 1) endR
            have harg : (goIndex (raw.drop s) ' ' + 0).toNat + s + 1
                = (goIndex (raw.drop s) ' ' + 0).toNat + 1 + s := by omega
            rw [harg]
            exact hs
          rw [hval]
          have hrecL := ih raw (endR + s + 1)
            (acc.add (slice (raw.drop s) 0 ((goIndex (raw.drop s) ' ' + 0).toNat))
              (unescape (slice (raw.drop s) ((goIndex (raw.drop s) ' ' + 0).toNat + 1) endR)))
            (by omega)
          have hrecR := ih (raw.drop s) (endR + 1)
            (acc.add (slice (raw.drop s) 0 ((goIndex (raw.drop s) ' ' + 0).toNat))
              (unescape (slice (raw.drop s) ((goIndex (raw.drop s) ' ' + 0).toNat + 1) endR)))
            (by omega)
          have hdd : raw.drop (endR + s + 1) = (raw.drop s).drop (endR + 1) := by
            rw [List.drop_drop]
            congr 1
            omega
          rw [hrecL, hrecR, hdd]
        · rw [if_neg (by omega), if_neg hgg]

/-- A present byte has an index. -/
theorem goIndexAux_isSome (c : Char) :
    ∀ (l : Bytes), c ∈ l → ∃ j, goIndexAux c l = some j := by
  intro l
  induction l with
  | nil => intro h; simp at h
  | cons a t ih =>
    intro h
    by_cases ha : a = c
    · exact ⟨0, by rw [goIndexAux, if_pos ha]⟩
    · rcases List.mem_cons.mp h with he | ht
      · exact absurd he.symm ha
      · obtain ⟨j, hj⟩ := ih ht
        refine ⟨j + 1, ?_⟩
        rw [goIndexAux, if_neg ha, hj]
        rfl

/-- A byte present past a differing head has positive index. -/
theorem goIndex_cons_pos (c k0 : Char) (tail : Bytes) (hk : k0 ≠ c) (hm : c ∈ tail) :
    1 ≤ goIndex (k0 :: tail) c := by
  obtain ⟨j, hj⟩ := goIndexAux_isSome c tail hm
  rw [goIndex, goIndexAux, if_neg hk, hj]
  simp only [Option.map]
  omega

/-- The serialized buffer after a field never starts with a space: it
is either the blank line or the next field's key. -/
theorem serializeFields_head (fs : List (Bytes × Bytes)) (msg : Bytes)
    (hk : ∀ f ∈ fs, goodKey f.1) :
    (serializeFields fs ++ '\n' :: msg).head? ≠ some ' ' := by
  cases fs with
  | nil =>
    intro h
    rw [show serializeFields [] ++ '\n' :: msg = '\n' :: msg from rfl] at h
    simp at h
  | cons g gs =>
    obtain ⟨hne, hsp, hnl⟩ := hk g (by simp)
    cases hg1 : g.1 with
    | nil => exact absurd hg1 hne
    | cons q qt =>
      have hform : serializeFields (g :: gs) ++ '\n' :: msg
          = q :: (qt ++ ' ' :: escape g.2 ++ ['\n'] ++ serializeFields gs ++ '\n' :: msg) := by
        simp [serializeFields, kvLine, hg1]
      rw [hform]
      intro hcontra
      simp at hcontra
      exact (hsp q (by rw [hg1]; simp)) hcontra

/-- Parsing the serialized keyed lines followed by the blank line and
the message: each field is recovered with its key and exact value, in
order, and the message lands under the empty key. -/
theorem parse_fields :
    ∀ (fields : List (Bytes × Bytes)) (msg : Bytes) (acc : Kvlm) (fuel : Nat),
      (∀ f ∈ fields, goodKey f.1) →
      (serializeFields fields).length + msg.length + 2 ≤ fuel →
      parseKvlmF (serializeFields fields ++ '\n' :: msg) fuel 0 acc
        = .ok ((fields.foldl (fun a f => a.add f.1 f.2) acc).add [] msg) := by
  intro fields
  induction fields with
  | nil =>
    intro msg acc fuel hk hf
    rw [show serializeFields [] ++ '\n' :: msg = '\n' :: msg from rfl]
    cases fuel with
    | zero =>
      rw [show (serializeFields []).length = 0 from rfl] at hf
      omega
    | succ f =>
      have hn1 : goIndex ('\n' :: msg) '\n' = 0 := by
        rw [goIndex, goIndexAux, if_pos rfl]
        rfl
      simp only [parseKvlmF, List.drop_zero, Nat.cast_zero]
      rw [if_pos (Or.inr (by rw [hn1]; norm_num))]
      rw [if_pos (show 0 + 1 ≤ ('\n' :: msg).length by simp)]
      rfl
  | cons fv fs ih =>
    intro msg acc fuel hk hf
    obtain ⟨key, v⟩ := fv
    obtain ⟨hkne, hksp, hknl⟩ := hk (key, v) (by simp)
    cases key with
    | nil => exact absurd rfl hkne
    | cons k0 kt =>
    cases fuel with
    | zero =>
      have hkv : (serializeFields ((k0 :: kt, v) :: fs)).length
          = (k0 :: kt).length + 1 + (escape v).length + 1 + (serializeFields fs).length := by
        simp [serializeFields, kvLine]
        omega
      omega
    | succ f =>
    have hS : serializeFields ((k0 :: kt, v) :: fs) ++ '\n' :: msg
        = (k0 :: kt) ++ (' ' :: (escape v ++ ('\n' :: (serializeFields fs ++ '\n' :: msg)))) := by
      simp [serializeFields, kvLine]
    rw [hS]
    have hspc : goIndex ((k0 :: kt) ++ (' ' :: (escape v ++ ('\n' :: (serializeFields fs ++ '\n' :: msg))))) ' '
        = ((k0 :: kt).length : Int) :=
      goIndex_append_first ' ' (k0 :: kt) _ hksp
    have hn1 : 1 ≤ goIndex ((k0 :: kt) ++ (' ' :: (escape v ++ ('\n' :: (serializeFields fs ++ '\n' :: msg))))) '\n' := by
      rw [List.cons_append]
      refine goIndex_cons_pos '\n' k0 _ (hknl k0 (by simp)) ?_
      simp
    have hcond : ¬(goIndex ((k0 :: kt) ++ (' ' :: (escape v ++ ('\n' :: (serializeFields fs ++ '\n' :: msg))))) ' ' + 0 < 0 + 1 ∨
        goIndex ((k0 :: kt) ++ (' ' :: (escape v ++ ('\n' :: (serializeFields fs ++ '\n' :: msg))))) '\n' + 0 < 0 + 1) := by
      push_neg
      constructor
      · rw [hspc]
        have : 1 ≤ (k0 :: kt).length := by simp
        push_cast
        omega
      · omega
    simp only [parseKvlmF, List.drop_zero, Nat.cast_zero]
    rw [if_neg hcond]
    have htn : (goIndex ((k0 :: kt) ++ (' ' :: (escape v ++ ('\n' :: (serializeFields fs ++ '\n' :: msg))))) ' ' + 0).toNat
        = (k0 :: kt).length := by
      rw [hspc]
      omega
    have hu : ((k0 :: kt) ++ (' ' :: (escape v ++ ('\n' :: (serializeFields fs ++ '\n' :: msg))))).drop (0 + 1)
        = (kt ++ [' ']) ++ (escape v ++ '\n' :: (serializeFields fs ++ '\n' :: msg)) := by
      simp
    have huNoNl : ∀ x ∈ kt ++ [' '], x ≠ '\n' := by
      intro x hx
      rcases List.mem_append.mp hx with h | h
      · exact hknl x (by simp [h])
      · simp at h
        subst h
        decide
    have hRne : serializeFields fs ++ '\n' :: msg ≠ [] := by
      intro hnil
      have hl := congrArg List.length hnil
      simp at hl
    have hRhead := serializeFields_head fs msg (fun g hg => hk g (by simp [hg]))
    have hfscan : v.count '\n' + 1 ≤ f + 1 := by
      have h1 : v.count '\n' ≤ v.length := List.count_le_length _ _
      have h2 : v.length ≤ (escape v).length := escape_length_ge v
      have hkv : (serializeFields ((k0 :: kt, v) :: fs)).length
          = (k0 :: kt).length + 1 + (escape v).length + 1 + (serializeFields fs).length := by
        simp [serializeFields, kvLine]
        omega
      omega
    have hscan := scanEnd_ok (f + 1) v (kt ++ [' '])
      (serializeFields fs ++ '\n' :: msg)
      ((k0 :: kt) ++ (' ' :: (escape v ++ ('\n' :: (serializeFields fs ++ '\n' :: msg))))) 0
      hfscan hu huNoNl hRne hRhead
    simp only [hscan]
    rw [if_pos (by rw [htn]; simp; omega)]
    have hval : slice ((k0 :: kt) ++ (' ' :: (escape v ++ ('\n' :: (serializeFields fs ++ '\n' :: msg)))))
        ((goIndex ((k0 :: kt) ++ (' ' :: (escape v ++ ('\n' :: (serializeFields fs ++ '\n' :: msg))))) ' ' + 0).toNat + 1)
        (0 + 1 + (kt ++ [' ']).length + (escape v).length) = escape v := by
      rw [htn]
      have hp : (k0 :: kt) ++ (' ' :: (escape v ++ ('\n' :: (serializeFields fs ++ '\n' :: msg))))
          = ((k0 :: kt) ++ [' ']) ++ (escape v ++ ('\n' :: (serializeFields fs ++ '\n' :: msg))) := by
        simp
      rw [hp]
      have ha1 : (k0 :: kt).length + 1 = ((k0 :: kt) ++ [' ']).length := by simp
      have ha2 : 0 + 1 + (kt ++ [' ']).length + (escape v).length
          = ((k0 :: kt) ++ [' ']).length + (escape v).length := by simp; omega
      rw [ha1, ha2]
      exact slice_middle ((k0 :: kt) ++ [' ']) (escape v) _
    have hkeyslice : slice ((k0 :: kt) ++ (' ' :: (escape v ++ ('\n' :: (serializeFields fs ++ '\n' :: msg))))) 0
        ((goIndex ((k0 :: kt) ++ (' ' :: (escape v ++ ('\n' :: (serializeFields fs ++ '\n' :: msg))))) ' ' + 0).toNat)
        = k0 :: kt := by
      rw [htn, slice, List.drop_zero]
      exact List.take_left (k0 :: kt) _
    rw [hkeyslice, hval, unescape_escape]
    have hslen : ((k0 :: kt) ++ (' ' :: (escape v ++ ('\n' :: (serializeFields fs ++ '\n' :: msg))))).length
        = (k0 :: kt).length + 1 + (escape v).length + 1 + (serializeFields fs).length + 1 + msg.length := by
      simp
      omega
    have hshift := parseKvlmF_shift f
      ((k0 :: kt) ++ (' ' :: (escape v ++ ('\n' :: (serializeFields fs ++ '\n' :: msg)))))
      (0 + 1 + (kt ++ [' ']).length + (escape v).length + 1)
      (acc.add (k0 :: kt) v)
      (by simp; omega)
    rw [hshift]
    have hdropE : ((k0 :: kt) ++ (' ' :: (escape v ++ ('\n' :: (serializeFields fs ++ '\n' :: msg))))).drop
        (0 + 1 + (kt ++ [' ']).length + (escape v).length + 1)
        = serializeFields fs ++ '\n' :: msg := by
      have hp : (k0 :: kt) ++ (' ' :: (escape v ++ ('\n' :: (serializeFields fs ++ '\n' :: msg))))
          = (((k0 :: kt) ++ [' ']) ++ (escape v ++ ['\n'])) ++ (serializeFields fs ++ '\n' :: msg) := by
        simp
      have harg : 0 + 1 + (kt ++ [' ']).length + (escape v).length + 1
          = (((k0 :: kt) ++ [' ']) ++ (escape v ++ ['\n'])).length := by
        simp
        omega
      rw [hp, harg]
      exact List.drop_left _ _
    rw [hdropE]
    have hrec := ih msg (acc.add (k0 :: kt) v) f (fun g hg => hk g (by simp [hg]))
      (by
        have hkv : (serializeFields ((k0 :: kt, v) :: fs)).length
            = (k0 :: kt).length + 1 + (escape v).length + 1 + (serializeFields fs).length := by
          simp [serializeFields, kvLine]
          omega
        omega)
    rw [hrec]
    simp only [List.foldl_cons]

/-- Claim C5: for every Kvlm with keys tree, parent, parent, author
(the parent key carrying two values) and a message, parsing the
serializer's output returns an equivalent Kvlm — the same keys in the
same insertion order, the same ordered value list per key, and the
same message under the empty key. -/
theorem c5_kvlm_round_trip (t p1 p2 a msg : Bytes) :
    parseKvlm (Kvlm.serialize
        (Kvlm.mk [(str "tree", [t]), (str "parent", [p1, p2]),
          (str "author", [a]), ([], [msg])]))
      = .ok (Kvlm.mk [(str "tree", [t]), (str "parent", [p1, p2]),
          (str "author", [a]), ([], [msg])]) := by
  have hser : Kvlm.serialize
      (Kvlm.mk [(str "tree", [t]), (str "parent", [p1, p2]),
        (str "author", [a]), ([], [msg])])
      = serializeFields [(str "tree", t), (str "parent", p1), (str "parent", p2),
          (str "author", a)] ++ '\n' :: msg := by
    simp [Kvlm.serialize, serializeFields, Kvlm.get, str]
  have hfold : ((([(str "tree", t), (str "parent", p1), (str "parent", p2),
        (str "author", a)] : List (Bytes × Bytes)).foldl
      (fun (x : Kvlm) (f : Bytes × Bytes) => x.add f.1 f.2) (Kvlm.mk [])).add [] msg)
      = Kvlm.mk [(str "tree", [t]), (str "parent", [p1, p2]),
          (str "author", [a]), ([], [msg])] := by
    simp [Kvlm.add, str]
  rw [parseKvlm, hser, ← hfold]
  apply parse_fields
  · intro g hg
    simp at hg
    rcases hg with h | h | h | h <;> rw [h] <;> refine ⟨?_, ?_, ?_⟩ <;> dsimp only <;> decide
  · simp
    omega

/-- The value scan when the terminating newline is the very last byte
of the buffer: the inspection of the byte after it runs off the end (a
Go panic). -/
theorem scanEnd_end_crash :
    ∀ (fuel : Nat) (w u raw : Bytes) (endPos : Nat),
      w.count '\n' + 1 ≤ fuel →
      raw.drop (endPos + 1) = u ++ (escape w ++ ['\n']) →
      (∀ x ∈ u, x ≠ '\n') →
      scanEnd raw endPos fuel = .error .crash := by
  intro fuel
  induction fuel with
  | zero =>
    intro w u raw endPos hf _ _
    omega
  | succ f ih =>
    intro w u raw endPos hf hd hu
    rcases split_first '\n' w with hno | ⟨w₁, w₂, hw, h1⟩
    · have hesc : escape w = w := escape_no_nl w hno
      rw [hesc] at hd
      have hnl : ∀ x ∈ u ++ w, x ≠ '\n' := by
        intro x hx
        rcases List.mem_append.mp hx with h | h
        · exact hu x h
        · exact hno x h
      have hidx : goIndexAux '\n' (raw.drop (endPos + 1)) = some (u ++ w).length := by
        rw [hd]
        have hassoc : u ++ (w ++ ['\n']) = (u ++ w) ++ '\n' :: [] := by simp
        rw [hassoc]
        exact goIndexAux_append_first '\n' (u ++ w) [] hnl
      simp only [scanEnd, hidx]
      have hget : raw.get? ((u ++ w).length + endPos + 1 + 1) = none := by
        rw [getq_drop]
        have hdd : raw.drop ((u ++ w).length + endPos + 1 + 1)
            = (raw.drop (endPos + 1)).drop ((u ++ w).length + 1) := by
          rw [List.drop_drop]
          congr 1
          omega
        rw [hdd, hd]
        have hassoc : u ++ (w ++ ['\n']) = ((u ++ w) ++ ['\n']) ++ [] := by simp
        rw [hassoc]
        have hlen2 : ((u ++ w) ++ ['\n']).length = (u ++ w).length + 1 := by
          rw [List.length_append]
          rfl
        rw [← hlen2, List.drop_left]
        rfl
      simp only [hget]
    · subst hw
      have hesc : escape (w₁ ++ '\n' :: w₂) = w₁ ++ '\n' :: ' ' :: escape w₂ := by
        rw [escape_append, escape_no_nl w₁ h1]
        simp [escape]
      rw [hesc] at hd
      have hnl : ∀ x ∈ u ++ w₁, x ≠ '\n' := by
        intro x hx
        rcases List.mem_append.mp hx with h | h
        · exact hu x h
        · exact h1 x h
      have hidx : goIndexAux '\n' (raw.drop (endPos + 1)) = some (u ++ w₁).length := by
        rw [hd]
        have hassoc : u ++ ((w₁ ++ '\n' :: ' ' :: escape w₂) ++ ['\n'])
            = (u ++ w₁) ++ '\n' :: (' ' :: (escape w₂ ++ ['\n'])) := by simp
        rw [hassoc]
        exact goIndexAux_append_first '\n' _ _ hnl
      simp only [scanEnd, hidx]
      have hget : raw.get? ((u ++ w₁).length + endPos + 1 + 1) = some ' ' := by
        rw [getq_drop]
        have hdd : raw.drop ((u ++ w₁).length + endPos + 1 + 1)
            = (raw.drop (endPos + 1)).drop ((u ++ w₁).length + 1) := by
          rw [List.drop_drop]
          congr 1
          omega
        rw [hdd, hd]
        have hassoc : u ++ ((w₁ ++ '\n' :: ' ' :: escape w₂) ++ ['\n'])
            = ((u ++ w₁) ++ ['\n']) ++ (' ' :: (escape w₂ ++ ['\n'])) := by simp
        rw [hassoc]
        have hlen2 : ((u ++ w₁) ++ ['\n']).length = (u ++ w₁).length + 1 := by
          rw [List.length_append]
          rfl
        rw [← hlen2, List.drop_left]
        rfl
      simp only [hget, if_pos]
      have hdd2 : raw.drop (((u ++ w₁).length + endPos + 1) + 1)
          = [' '] ++ (escape w₂ ++ ['\n']) := by
        have hdd : raw.drop (((u ++ w₁).length + endPos + 1) + 1)
            = (raw.drop (endPos + 1)).drop ((u ++ w₁).length + 1) := by
          rw [List.drop_drop]
          congr 1
          omega
        rw [hdd, hd]
        have hassoc : u ++ ((w₁ ++ '\n' :: ' ' :: escape w₂) ++ ['\n'])
            = ((u ++ w₁) ++ ['\n']) ++ ([' '] ++ (escape w₂ ++ ['\n'])) := by simp
        rw [hassoc]
        have hlen2 : ((u ++ w₁) ++ ['\n']).length = (u ++ w₁).length + 1 := by
          rw [List.length_append]
          rfl
        rw [← hlen2, List.drop_left]
      have hcount : w₂.count '\n' + 1 ≤ f := by
        have h0 : w₁.count '\n' = 0 :=
          List.count_eq_zero.mpr (fun hm => h1 '\n' hm rfl)
        rw [List.count_append, h0] at hf
        simp [List.count_cons] at hf
        omega
      exact ih w₂ [' '] raw ((u ++ w₁).length + endPos + 1) hcount hdd2
        (by intro x hx; simp at hx; subst hx; decide)

/-- Claim C6, amended: scanning a keyed field's value, a newline
followed by a space continues the value and a newline followed by any
other byte terminates it, the parse succeeding — provided at least one
byte follows the terminating newline; when that newline is the final
byte of the buffer the parser instead indexes past the end of the
buffer, a bounds violation. -/
theorem c6_kvlm_value_scan_amended :
    (∀ (key v msg : Bytes), goodKey key →
      parseKvlm (kvLine key v ++ '\n' :: msg)
        = .ok (((Kvlm.mk []).add key v).add [] msg)) ∧
    (∀ (key v : Bytes), goodKey key →
      parseKvlm (kvLine key v) = .error .crash) := by
  constructor
  · intro key v msg hg
    have hser : serializeFields [(key, v)] = kvLine key v := by
      simp [serializeFields]
    have hp := parse_fields [(key, v)] msg (Kvlm.mk [])
      ((serializeFields [(key, v)] ++ '\n' :: msg).length + 1)
      (by
        intro g hgm
        simp at hgm
        rw [hgm]
        exact hg)
      (by simp; omega)
    rw [parseKvlm, ← hser, hp]
    simp
  · intro key v hg
    obtain ⟨hkne, hksp, hknl⟩ := hg
    cases key with
    | nil => exact absurd rfl hkne
    | cons k0 kt =>
      have hkv2 : kvLine (k0 :: kt) v = (k0 :: kt) ++ (' ' :: (escape v ++ ['\n'])) := by
        simp [kvLine]
      have hspc : goIndex (kvLine (k0 :: kt) v) ' ' = (((k0 :: kt).length : Nat) : Int) := by
        rw [hkv2]
        exact goIndex_append_first ' ' (k0 :: kt) _ hksp
      have hn1 : 1 ≤ goIndex (kvLine (k0 :: kt) v) '\n' := by
        rw [kvLine, List.cons_append]
        refine goIndex_cons_pos '\n' k0 _ (hknl k0 (by simp)) ?_
        simp
      have hu : (kvLine (k0 :: kt) v).drop (0 + 1)
          = (kt ++ [' ']) ++ (escape v ++ ['\n']) := by
        rw [kvLine]
        simp
      have hfscan : v.count '\n' + 1 ≤ (kvLine (k0 :: kt) v).length + 1 := by
        have h1 : v.count '\n' ≤ v.length := List.count_le_length _ _
        have h2 : v.length ≤ (escape v).length := escape_length_ge v
        have h3 : (kvLine (k0 :: kt) v).length
            = (k0 :: kt).length + 1 + (escape v).length + 1 := by
          simp [kvLine]
          omega
        omega
      have hcrash := scanEnd_end_crash ((kvLine (k0 :: kt) v).length + 1) v (kt ++ [' '])
        (kvLine (k0 :: kt) v) 0 hfscan hu
        (by
          intro x hx
          rcases List.mem_append.mp hx with h | h
          · exact hknl x (by simp [h])
          · simp at h
            subst h
            decide)
      rw [parseKvlm]
      simp only [parseKvlmF, List.drop_zero, Nat.cast_zero]
      rw [if_neg (by
        push_neg
        constructor
        · rw [hspc]
          have hl : 1 ≤ (k0 :: kt).length := by simp
          push_cast
          omega
        · omega)]
      simp only [hcrash]

/-- Claim C6, witnessed: a field with an embedded continuation
followed by a blank line and message parses, and the same field with
nothing after its terminating newline crashes. -/
theorem c6_witness :
    parseKvlm (kvLine (str "tree") (str "a\nb") ++ '\n' :: str "m")
      = .ok (((Kvlm.mk []).add (str "tree") (str "a\nb")).add [] (str "m")) ∧
    parseKvlm (kvLine (str "tree") (str "x")) = .error .crash :=
  ⟨c6_kvlm_value_scan_amended.1 (str "tree") (str "a\nb") (str "m")
      ⟨by decide, by decide, by decide⟩,
   c6_kvlm_value_scan_amended.2 (str "tree") (str "x")
      ⟨by decide, by decide, by decide⟩⟩

/-! Lemmas on the layout manager and the reference resolver. -/

/-- The directory walk is a no-op over prefixes that already exist as
directories. -/
theorem foldlM_makeDirectory_noop (l : List Bytes) :
    ∀ (fs : FS), (∀ q ∈ l, statFS fs q = some .dir) →
      l.foldlM (fun s q => makeDirectory s q true) fs = .ok fs := by
  induction l with
  | nil => intro fs _; rfl
  | cons q qs ih =>
    intro fs h
    have hq : statFS fs q = some .dir := h q (by simp)
    have hstep : makeDirectory fs q true = .ok fs := by
      rw [makeDirectory, hq]
    rw [List.foldlM_cons, hstep]
    exact ih fs (fun r hr => h r (by simp [hr]))

/-- An id of lowercase hex bytes never carries the symbolic-ref
marker. -/
theorem ref_pref_false (d : Bytes) (hd : d ≠ []) (hh : ∀ c ∈ d, isLowerHex c) :
    (str "ref: ").isPrefixOf d = false := by
  cases d with
  | nil => exact absurd rfl hd
  | cons c0 t =>
    have hc := hh c0 (by simp)
    have hne : ('r' == c0) = false := by
      rw [beq_eq_false_iff_ne]
      intro h
      rw [← h] at hc
      exact absurd hc (by decide)
    show List.isPrefixOf _ _ = false
    simp [List.isPrefixOf, hne]

/-- Claim C8, counterexample: with a regular file already at HEAD,
`MakeFile` with create set opens the existing file and returns its
handle — not the no-handle signal the claim states. -/
theorem c8_counterexample_makefile_returns_handle :
    makeFileU fsHEAD (str "HEAD") true = .ok (some (str "HEAD"), fsHEAD) := by
  rfl

/-- Claim C8, amended: the stated contract holds of `makeFile` (the
variant WriteObject and CreateRepository use): with parent prefixes in
place and create set, an existing regular file yields no handle and
leaves the filesystem untouched, and a handle is returned exactly when
the file was freshly created; the `MakeFile` variant instead opens an
existing file and returns that handle. -/
theorem c8_makefile_amended (fs : FS) (p : Bytes)
    (hpre : ∀ q ∈ dirPrefixes (joinSlash ((splitSlash (p.dropWhile (fun c => c = '/'))).dropLast)),
      statFS fs q = some .dir) :
    (∀ c, statFS fs p = some (.file c) → makeFileL fs p true = .ok (none, fs)) ∧
    (statFS fs p = none → makeFileL fs p true = .ok (some p, fs ++ [(p, .file [])])) := by
  have hmd : makeDirectories fs
      (joinSlash ((splitSlash (p.dropWhile (fun c => c = '/'))).dropLast)) true = .ok fs :=
    foldlM_makeDirectory_noop _ fs hpre
  constructor
  · intro c hc
    simp only [makeFileL, hmd, hc]
  · intro hn
    simp only [makeFileL, hmd, hn]

/-- Claim C8, witnessed: an existing HEAD yields no handle and no
change; an absent HEAD is created and its handle returned. -/
theorem c8_witness :
    makeFileL fsHEAD (str "HEAD") true = .ok (none, fsHEAD) ∧
    makeFileL [(str "", Entry.dir), (str ".", Entry.dir)] (str "HEAD") true
      = .ok (some (str "HEAD"),
          [(str "", Entry.dir), (str ".", Entry.dir)] ++ [(str "HEAD", Entry.file [])]) :=
  ⟨(c8_makefile_amended fsHEAD (str "HEAD") (by decide)).1 (str "x") (by decide),
   (c8_makefile_amended [(str "", Entry.dir), (str ".", Entry.dir)] (str "HEAD")
      (by decide)).2 (by decide)⟩

/-- Claim C9: with refs/heads/foo holding the symbolic content and
refs/heads/bar a literal 40-hex id plus newline, resolution from foo
follows exactly one indirection — it succeeds with recursion depth
two, returning the literal id with the newline stripped, and one
level of recursion alone does not complete. -/
theorem c9_symbolic_ref_chain (id : Bytes) (hlen : id.length = 40)
    (hhex : ∀ c ∈ id, isLowerHex c) :
    resolveRef (fsRefs id) 2 (str "refs/heads/foo") = .ok id ∧
    resolveRef (fsRefs id) 1 (str "refs/heads/foo") = .error .nonterm := by
  constructor
  · have hstep : resolveRef (fsRefs id) 2 (str "refs/heads/foo")
        = resolveRef (fsRefs id) 1 (str "refs/heads/bar") := by rfl
    rw [hstep]
    have h2 : makeFileU (fsRefs id) (str "refs/heads/bar") false
        = .ok (some (str "refs/heads/bar"), fsRefs id) := rfl
    have h3 : readAll (fsRefs id) (str "refs/heads/bar") = .ok (id ++ ['\n']) := rfl
    simp only [resolveRef, h2, h3]
    rw [if_neg (by simp)]
    have hdl : (id ++ ['\n']).dropLast = id := List.dropLast_concat
    rw [hdl]
    have hid : id ≠ [] := by
      intro h
      rw [h] at hlen
      simp at hlen
    rw [if_neg (by simp [ref_pref_false id hid hhex])]
  · rfl

/-- Claim C9, witnessed at a concrete id. -/
theorem c9_witness :
    resolveRef (fsRefs (str "0123456789abcdef0123456789abcdef01234567")) 2
        (str "refs/heads/foo")
      = .ok (str "0123456789abcdef0123456789abcdef01234567") ∧
    resolveRef (fsRefs (str "0123456789abcdef0123456789abcdef01234567")) 1
        (str "refs/heads/foo")
      = .error .nonterm :=
  c9_symbolic_ref_chain (str "0123456789abcdef0123456789abcdef01234567")
    (by decide) (by decide)

/-- Claim C10: the resolver strips the final byte of the ref file
unconditionally — on an empty ref file, the slice is out of bounds and
the operation does not return normally; on a stored 40-hex id with no
trailing newline, the id's final character is silently dropped (the
returned id has only 39 characters).  A well-formed call therefore
requires a nonempty file ending in a newline. -/
theorem c10_resolve_ref_strips_final_byte :
    resolveRef fsEmptyRef 1 (str "r") = .error .crash ∧
    (∀ (c : Bytes), c.length = 40 → (∀ ch ∈ c, isLowerHex ch) →
      resolveRef (fsBareId c) 1 (str "r") = .ok c.dropLast ∧ c.dropLast.length = 39) := by
  constructor
  · rfl
  · intro c hlen hhex
    constructor
    · have h2 : makeFileU (fsBareId c) (str "r") false
          = .ok (some (str "r"), fsBareId c) := rfl
      have h3 : readAll (fsBareId c) (str "r") = .ok c := rfl
      simp only [resolveRef, h2, h3]
      have hcne : c ≠ [] := by
        intro h
        rw [h] at hlen
        simp at hlen
      rw [if_neg hcne]
      have hdne : c.dropLast ≠ [] := by
        intro h
        have hl := congrArg List.length h
        rw [List.length_dropLast, hlen] at hl
        simp at hl
      have hdh : ∀ ch ∈ c.dropLast, isLowerHex ch := by
        intro ch hm
        exact hhex ch ((List.dropLast_sublist c).subset hm)
      rw [if_neg (by simp [ref_pref_false c.dropLast hdne hdh])]
    · rw [List.length_dropLast, hlen]

/-- Claim C10, witnessed at a concrete id without trailing newline. -/
theorem c10_witness :
    resolveRef (fsBareId (str "0123456789abcdef0123456789abcdef01234567")) 1 (str "r")
      = .ok ((str "0123456789abcdef0123456789abcdef01234567").dropLast) ∧
    ((str "0123456789abcdef0123456789abcdef01234567").dropLast).length = 39 :=
  c10_resolve_ref_strips_final_byte.2 (str "0123456789abcdef0123456789abcdef01234567")
    (by decide) (by decide)

end Wyag
